import Mathlib

/-!
Verification development for the SBU backup tool (`src/sbu.py`).

A resolved absolute filesystem path is modelled in canonical form as its
list of components (`RPath`): the absolute path `/a/b` is `["a", "b"]` and
the filesystem root `/` is `[]`.  On such canonical component lists the
Python test `p1 in p2.parents` is exactly "`p1` is a proper prefix of
`p2`", `pathlib` equality is list equality, and `str(dest) + str(src)`
(the target-path construction `CopyFiles._concat_paths`) is list append.

The filesystem itself is modelled as a finite tree (`FSTree`) whose
directory nodes carry an association list of named children; a path exists
iff the tree has a node at it, which builds in the invariant that every
prefix of an existing path is a directory.  The merge-copy engine
(`CopyFiles.copy` / `CopyFiles._merge_copy`) is embedded as a pure
function threading the tree and emitting a trace of its decisions
(conflict skips, overwrites, confirmation prompts, tree copies, merges).

Modelling notes, kept throughout:
* `filecmp.cmp` is modelled as byte equality of the two file contents
  (with `shallow=True` Python may also report equal for files with equal
  stat signatures; no claim below depends on that case).
* Python raises on a blocked write (`mkdir` across an existing regular
  file, `copy2` onto a directory) and on a missing source; the model
  performs no mutation there and records a `sourceMissing` event for the
  latter.  Both behaviours leave the filesystem unchanged at the blocked
  spot, which is what the frame properties below are about.
* The engine reads each source subtree once, when the source is
  processed.  Python re-reads the live filesystem, which agrees with the
  snapshot whenever source subtrees are disjoint from the destination
  subtree - the invariant the filter chain establishes before the engine
  runs.
-/

namespace SBU

/-- A resolved absolute filesystem path, as its list of components from
the root: `/a/b` is `["a", "b"]`, the root `/` is `[]`. -/
abbrev RPath := List String

/-- The parents of an absolute path, as `pathlib.Path.parents` lists them:
every proper prefix of the component list (`/a/b` has parents `/a` and
`/`). -/
def pathParents (p : RPath) : List RPath :=
  (List.range p.length).map (fun k => p.take k)

/-- The Python test `a in b.parents` on resolved absolute paths: `a` is a
strict ancestor directory of `b` (used in `Optimizer._minimize_paths` and
in the containment filters). -/
def isAncestor (a b : RPath) : Bool := decide (a ∈ pathParents b)

/-- The pairwise `samefile` assertion scan of `Optimizer._minimize_paths`:
`true` iff no pair `i < j` of the deduplicated list satisfies `samefile`
(the Python loop `assert False` fires otherwise). -/
def noSamefilePairs (samefile : RPath → RPath → Bool) : List RPath → Bool
  | [] => true
  | p :: ps => ps.all (fun q => !samefile p q) && noSamefilePairs samefile ps

/-- The `has_successor` marking of `Optimizer._minimize_paths`: path `x`
is marked iff some member of the candidate list is a strict ancestor of
it. -/
def hasAncestorIn (ps : List RPath) (x : RPath) : Bool :=
  ps.any (fun y => isAncestor y x)

/-- `Optimizer._minimize_paths`, abstracted over the two filesystem
primitives it consumes: `resolve` (`Path.resolve`) and `samefile`
(`Path.samefile`).  The input list is first resolved and deduplicated
textually (`list(set(path.resolve() for path in paths))`); the pairwise
scan then asserts that no two distinct deduplicated paths name the same
filesystem object (`assert False` is modelled as `none`), and the paths
with a strict ancestor in the candidate list are dropped. -/
def minimize_paths (resolve : RPath → RPath) (samefile : RPath → RPath → Bool)
    (paths : List RPath) : Option (Finset RPath) :=
  let ps := (paths.map resolve).dedup
  if noSamefilePairs samefile ps then
    some ((ps.filter (fun x => !hasAncestorIn ps x)).toFinset)
  else
    none

/-- `Optimizer._minimize_paths` in the canonical-filesystem
instantiation: the inputs are already resolved (`resolve` is the
identity) and distinct canonical paths name distinct filesystem objects
(`samefile` is equality), which is the spec's reading of `ResolvedPath`
equality in a filesystem without hard-link aliasing. -/
def minimize (paths : List RPath) : Option (Finset RPath) :=
  minimize_paths id (fun a b => decide (a = b)) paths

/-- The set of paths `Optimizer._minimize_paths` retains: members of the
deduplicated candidate list with no strict ancestor among the
candidates. -/
def keptSet (S : List RPath) : Finset RPath :=
  (S.dedup.filter (fun x => !hasAncestorIn S.dedup x)).toFinset

/-- Stated from the spec's words, for comparison with the code: the
maximal elements of a set of paths under the containment partial order
(`a < b` iff `b` is an ancestor of `a`): the members of `T` with no strict
ancestor in `T`. -/
def specMaximal (T : Finset RPath) : Finset RPath :=
  T.filter (fun x => ∀ y ∈ T, isAncestor y x = false)

/-- File `f` is reachable by recursively expanding path `p`: `f` lies in
the subtree rooted at `p` (including `p` itself). -/
def covers (p f : RPath) : Bool := p.isPrefixOf f

/-- A degenerate `samefile` oracle for a filesystem in which the two
root-level names are hard links to one object: every pair of paths names
the same filesystem object. -/
def allSameObject : RPath → RPath → Bool := fun _ _ => true

/-! ### The filter chain (`FileFilter` subclasses and `Filterer`) -/

/-- A path specification as the filter chain receives it: possibly
relative (`isAbs = false`) and not yet resolved.  Equality is the textual
`pathlib` equality of normalized paths. -/
structure FPath where
  isAbs : Bool
  comps : List String
deriving DecidableEq

/-- `pathlib.Path.parents` for an `FPath`: the proper prefixes of the
component list, keeping the absolute flag (the final parent is `/` for an
absolute path and `.` for a relative one). -/
def FPath.parents (p : FPath) : List FPath :=
  (pathParents p.comps).map (fun c => ⟨p.isAbs, c⟩)

/-- The filesystem oracles the filter chain consults: `present` models
`Path.exists()` and `same` models `Path.samefile` on two existing
paths. -/
structure FilterFS where
  present : FPath → Bool
  same : FPath → FPath → Bool

/-- A filter's verdict on one path: `some true` keeps it, `some false`
drops it (after logging), `none` models an exception escaping
`filter`. -/
abbrev FilterFun := FPath → Option Bool

/-- `IsAbsolutePathFilter.filter`: keep absolute paths. -/
def isAbsolutePathFilter : FilterFun := fun p => some p.isAbs

/-- `FileExistsFilter.filter`: keep paths that exist. -/
def fileExistsFilter (fs : FilterFS) : FilterFun := fun p => some (fs.present p)

/-- `DestFolderNotIncludedInPathFilter.filter`: drop a source that is an
ancestor of the destination (`path in self._dest.parents`, a purely
textual test). -/
def destFolderNotIncludedInPathFilter (dest : FPath) : FilterFun :=
  fun p => some (!(decide (p ∈ dest.parents)))

/-- `PathNotDestFolderFilter.filter`: drop a source that is the
destination itself.  `Path.samefile` stats both sides, so it raises
(`none`) when the candidate path does not exist; the destination itself
was validated to exist by the `Filterer` constructor. -/
def pathNotDestFolderFilter (fs : FilterFS) (dest : FPath) : FilterFun :=
  fun p => if fs.present p then some (!(fs.same dest p)) else none

/-- `PathNotIncludedInDestFolderFilter.filter`: drop a source lying
inside the destination (`self._dest in path.parents`, purely textual). -/
def pathNotIncludedInDestFolderFilter (dest : FPath) : FilterFun :=
  fun p => some (!(decide (dest ∈ p.parents)))

/-- The filter list `Filterer.__init__` builds, in its fixed order. -/
def sbuFilters (fs : FilterFS) (dest : FPath) : List FilterFun :=
  [isAbsolutePathFilter, fileExistsFilter fs,
   destFolderNotIncludedInPathFilter dest, pathNotDestFolderFilter fs dest,
   pathNotIncludedInDestFolderFilter dest]

/-- One element flowing through the chain of lazy `filter` generators in
`Filterer._filter`: the filters are consulted in order until one drops
the element (`some false`), one raises (`none`), or all keep it. -/
def applyFilters : List FilterFun → FPath → Option Bool
  | [], _ => some true
  | f :: rest, p =>
    match f p with
    | none => none
    | some false => some false
    | some true => applyFilters rest p

/-- `Filterer._filter`: materialize the chained generators over the input
sequence in order; an exception from any filter on any element aborts the
whole traversal (`none`). -/
def runChain (filters : List FilterFun) : List FPath → Option (List FPath)
  | [] => some []
  | p :: ps =>
    match applyFilters filters p with
    | none => none
    | some b =>
      match runChain filters ps with
      | none => none
      | some l => some (if b then p :: l else l)

/-- A concrete destination for the filter-chain counterexample: `/d`. -/
def cdest : FPath := ⟨true, ["d"]⟩

/-- A concrete filesystem in which only the destination `/d` exists and
`samefile` is textual equality. -/
def cfs : FilterFS := ⟨fun p => decide (p = cdest), fun a b => decide (a = b)⟩

/-- A concrete absolute candidate path `/x` that does not exist. -/
def cx : FPath := ⟨true, ["x"]⟩

/-- The filter list with `PathNotDestFolderFilter` moved to the front - a
permutation of the implemented order. -/
def reorderedFilters : List FilterFun :=
  [pathNotDestFolderFilter cfs cdest, isAbsolutePathFilter, fileExistsFilter cfs,
   destFolderNotIncludedInPathFilter cdest, pathNotIncludedInDestFolderFilter cdest]

/-! ### The merge-copy engine (`CopyFiles`) -/

/-- The kind of filesystem object at a path: a regular file with its
byte content, or a directory. -/
inductive Entry where
  | file (content : List Nat)
  | dir
deriving DecidableEq

/-- A filesystem subtree: regular files carry their bytes, directories
an association list of named children (in `iterdir` order). -/
inductive FSTree where
  | file (content : List Nat)
  | dir (children : List (String × FSTree))

/-- The first child of the given name, as directory lookup finds it. -/
def findChild : List (String × FSTree) → String → Option FSTree
  | [], _ => none
  | (m, t) :: rest, n => if m = n then some t else findChild rest n

/-- Replace the child of the given name, or append a new one. -/
def setChild : List (String × FSTree) → String → FSTree → List (String × FSTree)
  | [], n, t => [(n, t)]
  | (m, s) :: rest, n, t =>
    if m = n then (m, t) :: rest else (m, s) :: setChild rest n t

/-- The subtree at a path, `none` if nothing exists there (`Path.exists`
is `isSome`, `Path.is_file` checks for a `file` node). -/
def lookup : FSTree → RPath → Option FSTree
  | t, [] => some t
  | .file _, _ :: _ => none
  | .dir ch, n :: rest =>
    match findChild ch n with
    | some sub => lookup sub rest
    | none => none

/-- The kind of node of a subtree. -/
def toEntry : FSTree → Entry
  | .file c => .file c
  | .dir _ => .dir

/-- What exists at a path: its kind and, for a file, its bytes - without
the subtree below a directory. -/
def entryAt (fs : FSTree) (p : RPath) : Option Entry := (lookup fs p).map toEntry

/-- `Path.mkdir(parents=True, exist_ok=True)`: create a directory at
every missing spot along the path, never touching an existing entry.
Python raises when a regular file blocks the way (`FileExistsError` /
`NotADirectoryError`); the model then leaves the tree unchanged. -/
def mkdirp : FSTree → RPath → FSTree
  | t, [] => t
  | .file c, _ :: _ => .file c
  | .dir ch, n :: rest =>
    match findChild ch n with
    | some sub => .dir (setChild ch n (mkdirp sub rest))
    | none => .dir (setChild ch n (mkdirp (.dir []) rest))

/-- Place a subtree at a path whose parent directories exist
(`shutil.copy2` / `shutil.copytree` writing to `target` after the
engine's `target.parent.mkdir(...)`).  When an intermediate directory is
missing or a regular file blocks the way Python raises; the model then
leaves the tree unchanged. -/
def writeAt : FSTree → RPath → FSTree → FSTree
  | _, [], t => t
  | .file c, _ :: _, _ => .file c
  | .dir ch, [n], t => .dir (setChild ch n t)
  | .dir ch, n :: m :: rest, t =>
    match findChild ch n with
    | some sub => .dir (setChild ch n (writeAt sub (m :: rest) t))
    | none => .dir ch

/-- `filecmp.cmp(path, target)`: false when the target is not a regular
file, otherwise byte equality of the contents (see the note on
`shallow=True` in the file header). -/
def cmpNode : FSTree → List Nat → Bool
  | .file c, c2 => decide (c = c2)
  | .dir _, _ => false

/-- `CopyConflictMode`. -/
inductive CopyConflictMode where
  | NO_OVERWRITE
  | OVERWRITE
  | ASK
deriving DecidableEq

/-- One decision the engine takes and logs; the list of these events is
the engine's observable decision log, including conflict evaluations and
confirmation prompts. -/
inductive Ev where
  | copyNew (src target : RPath)
  | skipIdentical (src : RPath)
  | skipNoOverwrite (src : RPath)
  | overwriteFile (src target : RPath)
  | askPrompt (src : RPath) (answer : Bool)
  | treeCopy (src target : RPath)
  | mergeDir (src target : RPath)
  | sourceMissing (src : RPath)
deriving DecidableEq

/-- `CopyFiles._concat_paths`: `Path(str(p1) + str(p2))`. -/
def concat_paths (p1 p2 : String) : String := p1 ++ p2

/-- `str(Path)` of an absolute component-list path (the root `/` is
rendered as the empty string; no claim depends on the root's
rendering). -/
def pathString : RPath → String
  | [] => ""
  | n :: rest => "/" ++ n ++ pathString rest

/-- The engine's target for a source path: on absolute resolved paths
the string concatenation `str(dest) + str(src)` concatenates the
component lists. -/
def targetOf (dest src : RPath) : RPath := dest ++ src

/-- The mutation a file copy performs, shared by the regular-file
branches of `CopyFiles.copy` and `CopyFiles._merge_copy`: make the
target's parents and write the bytes.  `copy2` onto an existing
directory raises (`IsADirectoryError`); the model then leaves the tree
unchanged. -/
def copyFileAt (fs : FSTree) (target : RPath) (c : List Nat) : FSTree :=
  match lookup fs target with
  | some (.dir _) => fs
  | _ => writeAt (mkdirp fs target.dropLast) target (.file c)

/-- The regular-file branch of the engine's per-path dispatch: decide
between copy, skip-identical and the conflict policy, then mutate unless
`pretend`. -/
def fileStep (mode : CopyConflictMode) (ask : RPath → Bool) (dest0 : RPath)
    (pretend : Bool) (srcPath : RPath) (c : List Nat) (fs : FSTree) :
    FSTree × List Ev :=
  let target := targetOf dest0 srcPath
  match lookup fs target with
  | none =>
    (if pretend then fs else copyFileAt fs target c, [.copyNew srcPath target])
  | some t =>
    if cmpNode t c then (fs, [.skipIdentical srcPath])
    else
      match mode with
      | .OVERWRITE =>
        (if pretend then fs else copyFileAt fs target c,
         [.overwriteFile srcPath target])
      | .ASK =>
        if ask srcPath then
          (if pretend then fs else copyFileAt fs target c,
           [.askPrompt srcPath true])
        else (fs, [.askPrompt srcPath false])
      | .NO_OVERWRITE => (fs, [.skipNoOverwrite srcPath])

mutual

/-- The per-path dispatch shared by the loop bodies of `CopyFiles.copy`
and `CopyFiles._merge_copy`: a regular-file source goes through the
conflict logic, a directory source is tree-copied when its target is
missing (`copytree`) and merged child-by-child otherwise.  `snap` is the
source subtree as read from the filesystem when this path came up (see
the snapshot note in the file header). -/
def copy_one (mode : CopyConflictMode) (ask : RPath → Bool) (dest0 : RPath)
    (pretend : Bool) (srcPath : RPath) (snap : FSTree) (fs : FSTree) :
    FSTree × List Ev :=
  match snap with
  | .file c => fileStep mode ask dest0 pretend srcPath c fs
  | .dir ch =>
    let target := targetOf dest0 srcPath
    match lookup fs target with
    | none =>
      (if pretend then fs
       else writeAt (mkdirp fs target.dropLast) target (.dir ch),
       [.treeCopy srcPath target])
    | some _ =>
      let r := merge_copy mode ask dest0 pretend srcPath ch fs
      (r.1, .mergeDir srcPath target :: r.2)

/-- `CopyFiles._merge_copy`: iterate over the source directory's
children in order and apply the per-path dispatch to each against the
live tree. -/
def merge_copy (mode : CopyConflictMode) (ask : RPath → Bool) (dest0 : RPath)
    (pretend : Bool) (srcPath : RPath) (ch : List (String × FSTree))
    (fs : FSTree) : FSTree × List Ev :=
  match ch with
  | [] => (fs, [])
  | (n, sub) :: rest =>
    let r1 := copy_one mode ask dest0 pretend (srcPath ++ [n]) sub fs
    let r2 := merge_copy mode ask dest0 pretend srcPath rest r1.1
    (r2.1, r1.2 ++ r2.2)

end

/-- `CopyFiles.copy`: process each (already resolved) source path in
order against the evolving tree.  A missing source makes Python's
`copytree` / `iterdir` raise; the model records `sourceMissing` and
performs no mutation for it. -/
def copy (mode : CopyConflictMode) (ask : RPath → Bool) (dest0 : RPath)
    (sources : List RPath) (pretend : Bool) (fs : FSTree) : FSTree × List Ev :=
  match sources with
  | [] => (fs, [])
  | s :: rest =>
    match lookup fs s with
    | some snap =>
      let r1 := copy_one mode ask dest0 pretend s snap fs
      let r2 := copy mode ask dest0 rest pretend r1.1
      (r2.1, r1.2 ++ r2.2)
    | none =>
      let r2 := copy mode ask dest0 rest pretend fs
      (r2.1, .sourceMissing s :: r2.2)

mutual

/-- Well-formed subtree: within every directory the child names are
distinct, as `iterdir` of a real directory guarantees. -/
def wfTree : FSTree → Bool
  | .file _ => true
  | .dir ch => decide (ch.map Prod.fst).Nodup && wfChildren ch

/-- Well-formedness of a children list. -/
def wfChildren : List (String × FSTree) → Bool
  | [] => true
  | (_, sub) :: rest => wfTree sub && wfChildren rest

end

mutual

/-- The relative paths of the regular files inside a subtree. -/
def filePositions : FSTree → List RPath
  | .file _ => [[]]
  | .dir ch => filePositionsCh ch

/-- The relative file paths contributed by a children list. -/
def filePositionsCh : List (String × FSTree) → List RPath
  | [] => []
  | (n, sub) :: rest => (filePositions sub).map (n :: ·) ++ filePositionsCh rest

end

/-- Concrete filesystem for the `NoOverwrite` scenario: the destination
`/d` already holds `/d/a` with bytes `[2]`, and the source `/a` has
bytes `[1]`. -/
def fs6 : FSTree := .dir [("d", .dir [("a", .file [2])]), ("a", .file [1])]

/-- Concrete filesystem for the merge scenario: the destination `/d`
already holds `/d/a/b/old` and the source directory `/a/b` holds a
different file `new`. -/
def fs7 : FSTree :=
  .dir [("d", .dir [("a", .dir [("b", .dir [("old", .file [1])])])]),
        ("a", .dir [("b", .dir [("new", .file [2])])])]

/-- Concrete filesystem for the dry-run claims: an empty destination
`/d` and a source directory `/a` containing the file `b`. -/
def fs8 : FSTree := .dir [("d", .dir []), ("a", .dir [("b", .file [1])])]

/-! ### Process exit codes (`Main.main`) -/

/-- The fatal setup errors the spec's exit-code contract is about. -/
inductive SetupError where
  | backupListMissing
  | backupListNotFile
  | destMissing
  | destNotDir
  | noDefaultFilename
deriving DecidableEq

/-- `errno.ENOENT` on Linux. -/
def ENOENT : Nat := 2

/-- `errno.ENOTDIR` on Linux. -/
def ENOTDIR : Nat := 20

/-- The exit-code mapping of `Main.main`'s exception handlers:
`BackupFileParser.__init__` raises `FileNotFoundError` both for a
missing backup list and for one that is not a regular file, handled with
`exit(errno.ENOENT)`; `Filterer` / `CopyFiles` / `Compression` raise
`FileNotFoundError` for a missing destination (handled with `ENOENT`)
and `NotADirectoryError` for a non-directory one (handled with
`ENOTDIR`); `NoDefaultFilenameAvailableError` is handled with
`exit(errno.ENOENT)`. -/
def exitCodeOf : SetupError → Nat
  | .backupListMissing => ENOENT
  | .backupListNotFile => ENOENT
  | .destMissing => ENOENT
  | .destNotDir => ENOTDIR
  | .noDefaultFilename => ENOENT

/-! ### The interactive confirmation (`Util.overwrite_confirmation`) -/

/-- The affirmative answers of `Util.overwrite_confirmation`. -/
def confirmations : List String := ["", "y", "yes"]

/-- The negative answers of `Util.overwrite_confirmation`. -/
def declines : List String := ["n", "no"]

/-- Python's `str.strip` on the character list: remove leading and
trailing whitespace. -/
def stripChars (l : List Char) : List Char :=
  ((l.dropWhile Char.isWhitespace).reverse.dropWhile Char.isWhitespace).reverse

/-- Python's `answer.strip()`. -/
def stripStr (s : String) : String := ⟨stripChars s.data⟩

/-- Python's `answer.lower()`. -/
def lowerStr (s : String) : String := ⟨s.data.map Char.toLower⟩

/-- `Util.overwrite_confirmation`, with the interactive input made
explicit as the list of answers the user types: loop until an answer,
stripped and lowercased, is a confirmation (`true`) or a decline
(`false`); an exhausted stream models a loop that never returns
(`none`). -/
def overwrite_confirmation : List String → Option Bool
  | [] => none
  | a :: rest =>
    let answer := lowerStr (stripStr a)
    if answer ∈ confirmations then some true
    else if answer ∈ declines then some false
    else overwrite_confirmation rest

/-! ### Helper lemmas on paths and the minimizer -/

theorem isAncestor_iff {a b : RPath} : isAncestor a b = true ↔ a <+: b ∧ a ≠ b := by
  simp only [isAncestor, decide_eq_true_eq, pathParents, List.mem_map, List.mem_range]
  constructor
  · rintro ⟨k, hk, rfl⟩
    refine ⟨List.take_prefix k b, ?_⟩
    intro h
    have hlen := congrArg List.length h
    simp only [List.length_take] at hlen
    omega
  · rintro ⟨hpre, hne⟩
    have hta := List.prefix_iff_eq_take.1 hpre
    refine ⟨a.length, ?_, hta.symm⟩
    rcases Nat.eq_or_lt_of_le hpre.length_le with he | hl
    · exact absurd (hpre.eq_of_length he) hne
    · exact hl

theorem isAncestor_length_lt {a b : RPath} (h : isAncestor a b = true) :
    a.length < b.length := by
  obtain ⟨hpre, hne⟩ := isAncestor_iff.1 h
  rcases Nat.eq_or_lt_of_le hpre.length_le with he | hl
  · exact absurd (hpre.eq_of_length he) hne
  · exact hl

theorem isAncestor_self (p : RPath) : isAncestor p p = false := by
  cases h : isAncestor p p with
  | false => rfl
  | true => exact absurd rfl (isAncestor_iff.1 h).2

theorem noSamefilePairs_of_nodup {l : List RPath} (h : l.Nodup) :
    noSamefilePairs (fun a b => decide (a = b)) l = true := by
  induction l with
  | nil => rfl
  | cons p ps ih =>
    rcases List.nodup_cons.1 h with ⟨hp, hps⟩
    simp only [noSamefilePairs, Bool.and_eq_true, List.all_eq_true, ih hps, and_true]
    intro q hq
    simp only [Bool.not_eq_true', decide_eq_false_iff_not]
    exact fun he => hp (he ▸ hq)

theorem minimize_eq_keptSet (S : List RPath) : minimize S = some (keptSet S) := by
  unfold minimize minimize_paths keptSet
  simp [List.map_id, noSamefilePairs_of_nodup (List.nodup_dedup S)]

theorem mem_keptSet {S : List RPath} {x : RPath} :
    x ∈ keptSet S ↔ x ∈ S ∧ ∀ y ∈ S, isAncestor y x = false := by
  simp [keptSet, List.mem_toFinset, List.mem_filter, List.mem_dedup, hasAncestorIn,
        Bool.not_eq_true', List.any_eq_false]

theorem exists_kept_pref (S : List RPath) (q : RPath) (hq : q ∈ S) :
    ∃ p, p ∈ keptSet S ∧ p <+: q := by
  by_cases h : hasAncestorIn S.dedup q = true
  · obtain ⟨y, hy, hanc⟩ := List.any_eq_true.1 h
    obtain ⟨p, hp, hpq⟩ := exists_kept_pref S y (List.mem_dedup.1 hy)
    exact ⟨p, hp, hpq.trans (isAncestor_iff.1 hanc).1⟩
  · refine ⟨q, mem_keptSet.2 ⟨hq, ?_⟩, List.prefix_refl q⟩
    intro y hy
    cases hyx : isAncestor y q with
    | false => rfl
    | true =>
      exact absurd (List.any_eq_true.2 ⟨y, List.mem_dedup.2 hy, hyx⟩) h
termination_by q.length
decreasing_by
  exact isAncestor_length_lt hanc

theorem keptSet_eq_specMaximal (S : List RPath) :
    keptSet S = specMaximal S.toFinset := by
  ext x
  rw [mem_keptSet, specMaximal, Finset.mem_filter]
  simp [List.mem_toFinset]

theorem noSamefilePairs_spec {samefile : RPath → RPath → Bool} {l : List RPath}
    (h : noSamefilePairs samefile l = true)
    (hsymm : ∀ a b, samefile a b = samefile b a) :
    ∀ a ∈ l, ∀ b ∈ l, a ≠ b → samefile a b = false := by
  induction l with
  | nil => simp
  | cons p ps ih =>
    simp only [noSamefilePairs, Bool.and_eq_true, List.all_eq_true] at h
    obtain ⟨hall, hrest⟩ := h
    intro a ha b hb hne
    rcases List.mem_cons.1 ha with rfl | ha' <;> rcases List.mem_cons.1 hb with rfl | hb'
    · exact absurd rfl hne
    · have := hall b hb'
      simpa [Bool.not_eq_true'] using this
    · have := hall a ha'
      rw [hsymm]
      simpa [Bool.not_eq_true'] using this
    · exact ih hrest a ha' b hb' hne

/-! ### The claims about the minimizer -/

/-- C1: `minimize(S)` equals the set of maximal elements of the
deduplicated input under the containment partial order; the result is an
antichain (no member is an ancestor of another), the empty input yields
the empty set, and a single path yields itself. -/
theorem minimize_maximal_antichain :
    (∀ S : List RPath, minimize S = some (specMaximal S.toFinset)) ∧
    (∀ S : List RPath, ∀ a ∈ specMaximal S.toFinset, ∀ b ∈ specMaximal S.toFinset,
        a ≠ b → isAncestor a b = false ∧ isAncestor b a = false) ∧
    minimize ([] : List RPath) = some (∅ : Finset RPath) ∧
    (∀ p : RPath, minimize [p] = some {p}) := by
  refine ⟨?_, ?_, ?_, ?_⟩
  · intro S
    rw [minimize_eq_keptSet, keptSet_eq_specMaximal]
  · intro S a ha b hb _
    rw [specMaximal, Finset.mem_filter] at ha hb
    exact ⟨hb.2 a ha.1, ha.2 b hb.1⟩
  · rw [minimize_eq_keptSet]
    rfl
  · intro p
    rw [minimize_eq_keptSet]
    simp [keptSet, hasAncestorIn, isAncestor_self]

theorem minimize_maximal_antichain_witness :
    isAncestor ["a"] ["b"] = false ∧ isAncestor ["b"] ["a"] = false :=
  minimize_maximal_antichain.2.1 [["a"], ["b"]] ["a"] (by decide) ["b"] (by decide)
    (by decide)

/-- C2: minimizing never loses or adds coverage: a file lies in the
subtree of some member of `minimize(S)` iff it lies in the subtree of
some member of `S`. -/
theorem minimize_coverage (S : List RPath) (R : Finset RPath)
    (hmin : minimize S = some R) (f : RPath) :
    (∃ p ∈ R, covers p f = true) ↔ (∃ p ∈ S, covers p f = true) := by
  have hR : R = keptSet S := by
    have h := minimize_eq_keptSet S
    rw [hmin] at h
    exact Option.some.inj h
  subst hR
  constructor
  · rintro ⟨p, hp, hc⟩
    exact ⟨p, (mem_keptSet.1 hp).1, hc⟩
  · rintro ⟨p, hp, hc⟩
    obtain ⟨r, hr, hrp⟩ := exists_kept_pref S p hp
    refine ⟨r, hr, ?_⟩
    rw [covers, List.isPrefixOf_iff_prefix] at hc ⊢
    exact hrp.trans hc

theorem minimize_coverage_witness :
    (∃ p ∈ ({["a"]} : Finset RPath), covers p ["a", "b"] = true) ↔
      (∃ p ∈ [["a"], ["a", "b"]], covers p ["a", "b"] = true) :=
  minimize_coverage [["a"], ["a", "b"]] {["a"]} (by decide) ["a", "b"]

/-- C3 counterexample: in a filesystem where the distinct resolved paths
`/a` and `/b` are hard links to the same object (`samefile` holds), the
minimizer does not collapse them into a single entry: the pairwise
`assert` fires (modelled as `none`) and no set is emitted at all. -/
theorem minimize_samefile_counterexample :
    allSameObject ["a"] ["b"] = true ∧ (["a"] : RPath) ≠ ["b"] ∧
    minimize_paths id allSameObject [["a"], ["b"]] = none := by decide

/-- C3 (amended): the minimizer deduplicates by textual equality of the
resolved forms, which collapses symlinked and `..`-bearing spellings of
one object; two textually distinct resolved paths naming the same
filesystem object (hard links) are not collapsed - the pairwise
`samefile` assertion fails and no set is emitted - and whenever a set is
emitted it contains no two members naming the same filesystem object. -/
theorem minimize_dedup_amended :
    (∀ (resolve : RPath → RPath) (samefile : RPath → RPath → Bool) (p q : RPath)
        (S : List RPath), resolve p = resolve q →
        minimize_paths resolve samefile (p :: q :: S) =
          minimize_paths resolve samefile (q :: S)) ∧
    (∀ (resolve : RPath → RPath) (samefile : RPath → RPath → Bool) (S : List RPath)
        (R : Finset RPath), (∀ a b, samefile a b = samefile b a) →
        minimize_paths resolve samefile S = some R →
        ∀ a ∈ R, ∀ b ∈ R, a ≠ b → samefile a b = false) := by
  constructor
  · intro resolve samefile p q S h
    unfold minimize_paths
    simp only [List.map_cons]
    rw [List.dedup_cons_of_mem (show resolve p ∈ resolve q :: List.map resolve S by
      simp [h])]
  · intro resolve samefile S R hsymm hmin
    unfold minimize_paths at hmin
    by_cases hns : noSamefilePairs samefile ((S.map resolve).dedup) = true
    · rw [if_pos hns] at hmin
      intro a ha b hb hne
      rw [← Option.some.inj hmin] at ha hb
      rw [List.mem_toFinset, List.mem_filter] at ha hb
      exact noSamefilePairs_spec hns hsymm a ha.1 b hb.1 hne
    · rw [if_neg hns] at hmin
      exact absurd hmin (by simp)

theorem minimize_dedup_amended_witness :
    minimize_paths id (fun a b => decide (a = b)) [["a"], ["a"], ["b"]] =
      minimize_paths id (fun a b => decide (a = b)) [["a"], ["b"]] :=
  minimize_dedup_amended.1 id (fun a b => decide (a = b)) ["a"] ["a"] [["b"]] rfl

/-! ### Helper lemmas on the filter chain -/

theorem applyFilters_eq_all {l : List FilterFun} {p : FPath}
    (h : ∀ f ∈ l, (f p).isSome) :
    applyFilters l p = some (l.all (fun f => f p == some true)) := by
  induction l with
  | nil => rfl
  | cons f rest ih =>
    have hf := h f (List.mem_cons_self f rest)
    match hfp : f p with
    | none => rw [hfp] at hf; simp at hf
    | some false => simp [applyFilters, hfp]
    | some true =>
      simp [applyFilters, hfp, ih (fun g hg => h g (List.mem_cons_of_mem f hg))]

theorem runChain_eq_filter {l : List FilterFun} {paths : List FPath}
    (h : ∀ p ∈ paths, ∀ f ∈ l, (f p).isSome) :
    runChain l paths =
      some (paths.filter (fun p => l.all (fun f => f p == some true))) := by
  induction paths with
  | nil => rfl
  | cons p ps ih =>
    rw [runChain, applyFilters_eq_all (h p (List.mem_cons_self p ps)),
      ih (fun q hq => h q (List.mem_cons_of_mem p hq))]
    cases hb : l.all (fun f => f p == some true) <;> simp [List.filter_cons, hb]

theorem all_of_perm {l₁ l₂ : List FilterFun} (h : l₁.Perm l₂) (q : FilterFun → Bool) :
    l₁.all q = l₂.all q := by
  have h12 : l₁.all q = true ↔ l₂.all q = true := by
    simp only [List.all_eq_true]
    exact ⟨fun hh x hx => hh x (h.mem_iff.2 hx), fun hh x hx => hh x (h.mem_iff.1 hx)⟩
  cases hb : l₂.all q with
  | true => exact h12.2 hb
  | false =>
    cases hb1 : l₁.all q with
    | false => rfl
    | true => rw [h12.1 hb1] at hb; exact absurd hb (by simp)

theorem sbuFilters_total {fs : FilterFS} {dest : FPath} {p : FPath}
    (hex : fs.present p = true) :
    ∀ f ∈ sbuFilters fs dest, (f p).isSome := by
  intro f hf
  simp only [sbuFilters, List.mem_cons, List.not_mem_nil, or_false] at hf
  rcases hf with rfl | rfl | rfl | rfl | rfl <;>
    simp [isAbsolutePathFilter, fileExistsFilter, destFolderNotIncludedInPathFilter,
      pathNotDestFolderFilter, pathNotIncludedInDestFolderFilter, hex]

theorem applyFilters_sbu_isSome (fs : FilterFS) (dest : FPath) (p : FPath) :
    (applyFilters (sbuFilters fs dest) p).isSome = true := by
  cases hab : p.isAbs <;> cases hex : fs.present p <;>
    cases h3 : decide (p ∈ FPath.parents dest) <;>
    cases h4 : fs.same dest p <;>
    cases h5 : decide (dest ∈ FPath.parents p) <;>
    simp [sbuFilters, applyFilters, isAbsolutePathFilter, fileExistsFilter,
      destFolderNotIncludedInPathFilter, pathNotDestFolderFilter,
      pathNotIncludedInDestFolderFilter, hab, hex, h3, h4, h5]

/-! ### The claims about the filter chain -/

/-- C4 counterexample: with destination `/d` and the single candidate
`/x` (absolute but nonexistent), the implemented filter order cleanly
drops the entry, but the permutation of the same five predicates that
consults `PathNotDestFolderFilter` first throws (`Path.samefile` raises
on the nonexistent path): the keep/drop outcome is not
order-independent and the chain can throw for a bad entry. -/
theorem filter_chain_counterexample :
    List.Perm reorderedFilters (sbuFilters cfs cdest) ∧
    runChain (sbuFilters cfs cdest) [cx] = some [] ∧
    runChain reorderedFilters [cx] = none := by
  refine ⟨?_, rfl, rfl⟩
  exact (@List.perm_middle FilterFun (pathNotDestFolderFilter cfs cdest)
    [isAbsolutePathFilter, fileExistsFilter cfs,
     destFolderNotIncludedInPathFilter cdest]
    [pathNotIncludedInDestFolderFilter cdest]).symm

/-- C4 (amended): in the implemented fixed order the chain never throws -
relative and nonexistent entries are dropped by the two leading total
predicates before any `samefile`-based predicate runs - and on inputs
whose entries all exist (so that every predicate is total) the
keep/drop decisions are order-independent: any permutation of the five
predicates yields the same kept sequence. -/
theorem filter_chain_amended :
    (∀ (fs : FilterFS) (dest : FPath) (paths : List FPath),
        (runChain (sbuFilters fs dest) paths).isSome = true) ∧
    (∀ (fs : FilterFS) (dest : FPath) (l : List FilterFun) (paths : List FPath),
        l.Perm (sbuFilters fs dest) → (∀ p ∈ paths, fs.present p = true) →
        runChain l paths = runChain (sbuFilters fs dest) paths) := by
  constructor
  · intro fs dest paths
    induction paths with
    | nil => rfl
    | cons p ps ih =>
      rw [runChain]
      have h := applyFilters_sbu_isSome fs dest p
      match hap : applyFilters (sbuFilters fs dest) p with
      | none => rw [hap] at h; simp at h
      | some b =>
        match hrc : runChain (sbuFilters fs dest) ps with
        | none => rw [hrc] at ih; simp at ih
        | some l => simp
  · intro fs dest l paths hperm hex
    have htot2 : ∀ p ∈ paths, ∀ f ∈ sbuFilters fs dest, (f p).isSome :=
      fun p hp => sbuFilters_total (hex p hp)
    have htot1 : ∀ p ∈ paths, ∀ f ∈ l, (f p).isSome :=
      fun p hp f hf => htot2 p hp f (hperm.subset hf)
    rw [runChain_eq_filter htot1, runChain_eq_filter htot2]
    congr 1
    apply List.filter_congr
    intro p _
    exact all_of_perm hperm _

theorem filter_chain_amended_witness :
    runChain reorderedFilters [cdest] = runChain (sbuFilters cfs cdest) [cdest] :=
  filter_chain_amended.2 cfs cdest reorderedFilters [cdest]
    ((@List.perm_middle FilterFun (pathNotDestFolderFilter cfs cdest)
      [isAbsolutePathFilter, fileExistsFilter cfs,
       destFolderNotIncludedInPathFilter cdest]
      [pathNotIncludedInDestFolderFilter cdest]).symm)
    (by decide)

/-! ### The claims about target paths and the file-conflict logic -/

theorem pathString_append (d s : RPath) :
    pathString (d ++ s) = pathString d ++ pathString s := by
  induction d with
  | nil => rw [List.nil_append, pathString, String.empty_append]
  | cons n rest ih =>
    rw [List.cons_append, pathString, pathString, ih, ← String.append_assoc]

/-- C5: the engine's target for a source is the destination root with
the source's absolute path string appended - as component lists and as
rendered path strings - so two distinct sources never collide in the
destination tree, and each source's original absolute location is
recovered by stripping the destination root from its target. -/
theorem target_path_spec :
    (∀ dest s : RPath, targetOf dest s = dest ++ s) ∧
    (∀ dest s : RPath,
        pathString (targetOf dest s) =
          concat_paths (pathString dest) (pathString s)) ∧
    (∀ dest s t : RPath, s ≠ t → targetOf dest s ≠ targetOf dest t) ∧
    (∀ dest s : RPath, (targetOf dest s).drop dest.length = s) := by
  refine ⟨fun _ _ => rfl, ?_, ?_, ?_⟩
  · intro dest s
    exact pathString_append dest s
  · intro dest s t hne heq
    exact hne (List.append_cancel_left heq)
  · intro dest s
    exact List.drop_left dest s

theorem target_path_spec_witness :
    targetOf ["d"] ["a"] ≠ targetOf ["d"] ["b"] :=
  target_path_spec.2.2.1 ["d"] ["a"] ["b"] (by decide)

/-- C6: in `NoOverwrite` mode, a source regular file whose existing
target file differs byte-for-byte is skipped with the whole tree (in
particular the target file) unchanged; a byte-identical source/target
pair is skipped without any conflict being raised (no prompt, no
conflict event) - in both real and dry runs. -/
theorem no_overwrite_skips (ask : RPath → Bool) (dest0 s : RPath) (pretend : Bool)
    (fs : FSTree) (c c' : List Nat)
    (hsrc : lookup fs s = some (.file c))
    (htgt : lookup fs (targetOf dest0 s) = some (.file c')) :
    (c' ≠ c →
      copy .NO_OVERWRITE ask dest0 [s] pretend fs = (fs, [.skipNoOverwrite s])) ∧
    (c' = c →
      copy .NO_OVERWRITE ask dest0 [s] pretend fs = (fs, [.skipIdentical s])) := by
  constructor <;> intro hc <;>
    simp [copy, hsrc, copy_one, fileStep, htgt, cmpNode, hc]

theorem no_overwrite_skips_witness :
    copy .NO_OVERWRITE (fun _ => false) ["d"] [["a"]] false fs6 =
      (fs6, [.skipNoOverwrite ["a"]]) :=
  (no_overwrite_skips (fun _ => false) ["d"] ["a"] false fs6 [1] [2]
    rfl rfl).1 (by decide)

/-! ### Helper lemmas on list prefixes -/

theorem pref_append_left_iff {l l₁ l₂ : List String} :
    l ++ l₁ <+: l ++ l₂ ↔ l₁ <+: l₂ := by
  induction l with
  | nil => simp
  | cons a l ih => simp [List.cons_append, List.cons_prefix_cons, ih]

theorem pref_split_of_pref_append {q p r : List String} (h : q <+: p ++ r) :
    q <+: p ∨ p <+: q :=
  List.prefix_or_prefix_of_prefix h (List.prefix_append p r)

/-! ### Helper lemmas on the filesystem tree -/

theorem findChild_setChild (ch : List (String × FSTree)) (n m : String) (t : FSTree) :
    findChild (setChild ch n t) m = if m = n then some t else findChild ch m := by
  induction ch with
  | nil =>
    rcases eq_or_ne m n with rfl | hne
    · simp [setChild, findChild]
    · simp [setChild, findChild, hne, Ne.symm hne]
  | cons p rest ih =>
    obtain ⟨k, s⟩ := p
    rcases eq_or_ne k n with rfl | hkn
    · rcases eq_or_ne m k with rfl | hmk
      · simp [setChild, findChild]
      · simp [setChild, findChild, hmk, Ne.symm hmk]
    · rcases eq_or_ne k m with rfl | hkm
      · simp [setChild, findChild, hkn, Ne.symm hkn]
      · simp [setChild, findChild, hkn, hkm, ih]

theorem lookup_dir_cons (ch : List (String × FSTree)) (n : String) (q : RPath) :
    lookup (.dir ch) (n :: q) =
      (match findChild ch n with
       | some sub => lookup sub q
       | none => none) := rfl

theorem entryAt_dir_cons (ch : List (String × FSTree)) (n : String) (q : RPath) :
    entryAt (.dir ch) (n :: q) =
      (match findChild ch n with
       | some sub => entryAt sub q
       | none => none) := by
  unfold entryAt
  rw [lookup_dir_cons]
  cases findChild ch n <;> rfl

theorem lookup_append (fs : FSTree) (p q : RPath) :
    lookup fs (p ++ q) = (lookup fs p).bind (fun t => lookup t q) := by
  induction p generalizing fs with
  | nil => simp [lookup]
  | cons n p' ih =>
    cases fs with
    | file c => simp [lookup]
    | dir ch =>
      rw [List.cons_append, lookup_dir_cons, lookup_dir_cons]
      cases findChild ch n with
      | none => rfl
      | some sub => simp [ih]

theorem isSome_of_pref {fs : FSTree} {p q : RPath} (hpre : p <+: q)
    (h : (lookup fs q).isSome = true) : (lookup fs p).isSome = true := by
  obtain ⟨r, rfl⟩ := hpre
  rw [lookup_append] at h
  cases hp : lookup fs p with
  | none => rw [hp] at h; simp at h
  | some t => simp

theorem entryAt_eq_file_iff {fs : FSTree} {p : RPath} {c : List Nat} :
    entryAt fs p = some (.file c) ↔ lookup fs p = some (.file c) := by
  unfold entryAt
  cases h : lookup fs p with
  | none => simp
  | some t => cases t <;> simp [toEntry]

theorem isSome_of_entryAt {fs : FSTree} {p : RPath} {e : Entry}
    (h : entryAt fs p = some e) : (lookup fs p).isSome = true := by
  unfold entryAt at h
  cases hp : lookup fs p with
  | none => rw [hp] at h; simp at h
  | some t => simp

theorem not_pref_of_none {fs : FSTree} {T q : RPath} (hT : lookup fs T = none)
    (hq : (lookup fs q).isSome = true) : ¬ T <+: q := by
  intro hpre
  obtain ⟨r, rfl⟩ := hpre
  rw [lookup_append, hT] at hq
  simp at hq

theorem not_pref_of_file {fs : FSTree} {T q : RPath} {c' : List Nat}
    (hT : lookup fs T = some (.file c')) (hq : (lookup fs q).isSome = true)
    (hne : T ≠ q) : ¬ T <+: q := by
  intro hpre
  obtain ⟨r, rfl⟩ := hpre
  cases r with
  | nil => exact hne (by simp)
  | cons a r' =>
    rw [lookup_append, hT] at hq
    simp [lookup] at hq

theorem entryAt_writeAt_of_not_pref {p q : RPath} (t : FSTree) (fs : FSTree)
    (h : ¬ p <+: q) : entryAt (writeAt fs p t) q = entryAt fs q := by
  induction p generalizing fs q with
  | nil => exact absurd List.nil_prefix h
  | cons n p' ih =>
    cases fs with
    | file c => rfl
    | dir ch =>
      cases p' with
      | nil =>
        cases q with
        | nil => rfl
        | cons m q' =>
          have hmn : m ≠ n := by
            rintro rfl
            exact h ⟨q', rfl⟩
          rw [show writeAt (.dir ch) [n] t = .dir (setChild ch n t) from rfl,
            entryAt_dir_cons, entryAt_dir_cons, findChild_setChild, if_neg hmn]
      | cons n2 p'' =>
        cases hfc : findChild ch n with
        | none => simp [writeAt, hfc]
        | some sub =>
          rw [show writeAt (.dir ch) (n :: n2 :: p'') t =
            .dir (setChild ch n (writeAt sub (n2 :: p'') t)) by
              rw [writeAt.eq_def]; simp [hfc]]
          cases q with
          | nil => rfl
          | cons m q' =>
            rw [entryAt_dir_cons, entryAt_dir_cons, findChild_setChild]
            rcases eq_or_ne m n with rfl | hmn
            · rw [if_pos rfl, hfc]
              show entryAt (writeAt sub (n2 :: p'') t) q' = entryAt sub q'
              exact ih sub (fun hp => h (List.cons_prefix_cons.2 ⟨rfl, hp⟩))
            · rw [if_neg hmn]

theorem lookup_writeAt_of_incomp {p q : RPath} (t : FSTree) (fs : FSTree)
    (h1 : ¬ p <+: q) (h2 : ¬ q <+: p) :
    lookup (writeAt fs p t) q = lookup fs q := by
  induction p generalizing fs q with
  | nil => exact absurd List.nil_prefix h1
  | cons n p' ih =>
    cases fs with
    | file c => rfl
    | dir ch =>
      cases q with
      | nil => exact absurd List.nil_prefix h2
      | cons m q' =>
        cases p' with
        | nil =>
          have hmn : m ≠ n := by
            rintro rfl
            exact h1 ⟨q', rfl⟩
          rw [show writeAt (.dir ch) [n] t = .dir (setChild ch n t) from rfl,
            lookup_dir_cons, lookup_dir_cons, findChild_setChild, if_neg hmn]
        | cons n2 p'' =>
          cases hfc : findChild ch n with
          | none => simp [writeAt, hfc]
          | some sub =>
            rw [show writeAt (.dir ch) (n :: n2 :: p'') t =
              .dir (setChild ch n (writeAt sub (n2 :: p'') t)) by
                rw [writeAt.eq_def]; simp [hfc]]
            rw [lookup_dir_cons, lookup_dir_cons, findChild_setChild]
            rcases eq_or_ne m n with rfl | hmn
            · rw [if_pos rfl, hfc]
              show lookup (writeAt sub (n2 :: p'') t) q' = lookup sub q'
              exact ih sub
                (fun hp => h1 (List.cons_prefix_cons.2 ⟨rfl, hp⟩))
                (fun hp => h2 (List.cons_prefix_cons.2 ⟨rfl, hp⟩))
            · rw [if_neg hmn]

theorem entryAt_mkdirp {p q : RPath} {e : Entry} (fs : FSTree)
    (h : entryAt fs q = some e) : entryAt (mkdirp fs p) q = some e := by
  induction p generalizing fs q with
  | nil => cases fs <;> exact h
  | cons n p' ih =>
    cases fs with
    | file c => exact h
    | dir ch =>
      cases hfc : findChild ch n with
      | some sub =>
        rw [show mkdirp (.dir ch) (n :: p') = .dir (setChild ch n (mkdirp sub p')) by
          rw [mkdirp.eq_def]; simp [hfc]]
        cases q with
        | nil => exact h
        | cons m q' =>
          rw [entryAt_dir_cons, findChild_setChild]
          rw [entryAt_dir_cons] at h
          rcases eq_or_ne m n with rfl | hmn
          · rw [if_pos rfl]
            rw [hfc] at h
            show entryAt (mkdirp sub p') q' = some e
            exact ih sub h
          · rw [if_neg hmn]
            exact h
      | none =>
        rw [show mkdirp (.dir ch) (n :: p') =
          .dir (setChild ch n (mkdirp (.dir []) p')) by
            rw [mkdirp.eq_def]; simp [hfc]]
        cases q with
        | nil => exact h
        | cons m q' =>
          rw [entryAt_dir_cons, findChild_setChild]
          rw [entryAt_dir_cons] at h
          rcases eq_or_ne m n with rfl | hmn
          · rw [hfc] at h
            exact absurd h (by simp)
          · rw [if_neg hmn]
            exact h

theorem lookup_mkdirp_empty_of_not_pref {p q : RPath} (h : ¬ q <+: p) :
    lookup (mkdirp (.dir []) p) q = none := by
  induction p generalizing q with
  | nil =>
    cases q with
    | nil => exact absurd (List.prefix_refl []) h
    | cons m q' => rfl
  | cons n p' ih =>
    rw [show mkdirp (.dir []) (n :: p') =
      .dir (setChild [] n (mkdirp (.dir []) p')) by rw [mkdirp.eq_def]; simp [findChild]]
    cases q with
    | nil => exact absurd List.nil_prefix h
    | cons m q' =>
      rw [lookup_dir_cons, findChild_setChild]
      rcases eq_or_ne m n with rfl | hmn
      · rw [if_pos rfl]
        show lookup (mkdirp (.dir []) p') q' = none
        exact ih (fun hp => h (List.cons_prefix_cons.2 ⟨rfl, hp⟩))
      · rw [if_neg hmn]
        rfl

theorem lookup_mkdirp_of_not_pref {p q : RPath} (fs : FSTree) (h : ¬ q <+: p) :
    lookup (mkdirp fs p) q = lookup fs q := by
  induction p generalizing fs q with
  | nil => cases fs <;> rfl
  | cons n p' ih =>
    cases fs with
    | file c => rfl
    | dir ch =>
      cases q with
      | nil => exact absurd List.nil_prefix h
      | cons m q' =>
        cases hfc : findChild ch n with
        | some sub =>
          rw [show mkdirp (.dir ch) (n :: p') =
            .dir (setChild ch n (mkdirp sub p')) by rw [mkdirp.eq_def]; simp [hfc]]
          rw [lookup_dir_cons, lookup_dir_cons, findChild_setChild]
          rcases eq_or_ne m n with rfl | hmn
          · rw [if_pos rfl, hfc]
            show lookup (mkdirp sub p') q' = lookup sub q'
            exact ih sub (fun hp => h (List.cons_prefix_cons.2 ⟨rfl, hp⟩))
          · rw [if_neg hmn]
        | none =>
          rw [show mkdirp (.dir ch) (n :: p') =
            .dir (setChild ch n (mkdirp (.dir []) p')) by rw [mkdirp.eq_def]; simp [hfc]]
          rw [lookup_dir_cons, lookup_dir_cons, findChild_setChild]
          rcases eq_or_ne m n with rfl | hmn
          · rw [if_pos rfl, hfc]
            show lookup (mkdirp (.dir []) p') q' = none
            exact lookup_mkdirp_empty_of_not_pref
              (fun hp => h (List.cons_prefix_cons.2 ⟨rfl, hp⟩))
          · rw [if_neg hmn]

/-! ### Frame lemmas for the engine's primitive mutations -/

theorem write_step_frame (fs : FSTree) (T : RPath) (node : FSTree) (q : RPath)
    (h1 : ¬ T <+: q) (h2 : ¬ q <+: T) :
    lookup (writeAt (mkdirp fs T.dropLast) T node) q = lookup fs q := by
  rw [lookup_writeAt_of_incomp node _ h1 h2,
    lookup_mkdirp_of_not_pref _ (fun hp => h2 (hp.trans (List.dropLast_prefix T)))]

theorem write_step_preserves_file {fs : FSTree} {T q : RPath} {c : List Nat}
    (node : FSTree) (hq : entryAt fs q = some (.file c)) (hTq : ¬ T <+: q) :
    entryAt (writeAt (mkdirp fs T.dropLast) T node) q = some (.file c) := by
  rw [entryAt_writeAt_of_not_pref node _ hTq]
  exact entryAt_mkdirp _ hq

theorem copyFileAt_frame (fs : FSTree) (T : RPath) (c : List Nat) (q : RPath)
    (h1 : ¬ T <+: q) (h2 : ¬ q <+: T) :
    lookup (copyFileAt fs T c) q = lookup fs q := by
  unfold copyFileAt
  cases hl : lookup fs T with
  | none => exact write_step_frame fs T _ q h1 h2
  | some t =>
    cases t with
    | dir ch => rfl
    | file c' => exact write_step_frame fs T _ q h1 h2

theorem copyFileAt_preserves_file {fs : FSTree} {T q : RPath} {c c0 : List Nat}
    (hq : entryAt fs q = some (.file c)) (hne : q ≠ T) :
    entryAt (copyFileAt fs T c0) q = some (.file c) := by
  unfold copyFileAt
  cases hl : lookup fs T with
  | none =>
    exact write_step_preserves_file _ hq (not_pref_of_none hl (isSome_of_entryAt hq))
  | some t =>
    cases t with
    | dir ch => exact hq
    | file c' =>
      exact write_step_preserves_file _ hq
        (not_pref_of_file hl (isSome_of_entryAt hq) (fun he => hne he.symm))

theorem fileStep_fst (mode : CopyConflictMode) (ask : RPath → Bool) (dest0 : RPath)
    (pretend : Bool) (srcPath : RPath) (c : List Nat) (fs : FSTree) :
    (fileStep mode ask dest0 pretend srcPath c fs).1 = fs ∨
      (fileStep mode ask dest0 pretend srcPath c fs).1 =
        copyFileAt fs (targetOf dest0 srcPath) c := by
  simp only [fileStep]
  cases hl : lookup fs (targetOf dest0 srcPath) with
  | none => cases pretend <;> simp
  | some t =>
    cases hc : cmpNode t c <;> cases mode <;> cases pretend <;>
      simp [hc] <;> cases ask srcPath <;> simp

theorem fileStep_pretend (mode : CopyConflictMode) (ask : RPath → Bool)
    (dest0 srcPath : RPath) (c : List Nat) (fs : FSTree) :
    (fileStep mode ask dest0 true srcPath c fs).1 = fs := by
  simp only [fileStep]
  cases hl : lookup fs (targetOf dest0 srcPath) with
  | none => rfl
  | some t =>
    cases hc : cmpNode t c <;> cases mode <;> simp [hc] <;>
      cases ask srcPath <;> rfl

theorem fileStep_trace (mode : CopyConflictMode) (ask : RPath → Bool)
    (dest0 srcPath : RPath) (c : List Nat) (fs g : FSTree)
    (hag : lookup g (targetOf dest0 srcPath) = lookup fs (targetOf dest0 srcPath)) :
    (fileStep mode ask dest0 false srcPath c g).2 =
      (fileStep mode ask dest0 true srcPath c fs).2 := by
  simp only [fileStep, hag]
  cases hl : lookup fs (targetOf dest0 srcPath) with
  | none => rfl
  | some t =>
    cases hc : cmpNode t c <;> cases mode <;> simp [hc] <;>
      cases ask srcPath <;> rfl

/-! ### Frame and dry-run lemmas for the engine's recursion -/

mutual

theorem copy_one_frame (mode : CopyConflictMode) (ask : RPath → Bool) (dest0 : RPath)
    (pretend : Bool) (srcPath : RPath) (snap : FSTree) (fs : FSTree) (q : RPath)
    (h1 : ¬ targetOf dest0 srcPath <+: q) (h2 : ¬ q <+: targetOf dest0 srcPath) :
    lookup (copy_one mode ask dest0 pretend srcPath snap fs).1 q = lookup fs q := by
  cases snap with
  | file c =>
    show lookup (fileStep mode ask dest0 pretend srcPath c fs).1 q = lookup fs q
    rcases fileStep_fst mode ask dest0 pretend srcPath c fs with he | he
    · rw [he]
    · rw [he]
      exact copyFileAt_frame fs _ c q h1 h2
  | dir ch =>
    simp only [copy_one]
    cases hl : lookup fs (targetOf dest0 srcPath) with
    | none =>
      cases pretend with
      | true => rfl
      | false =>
        show lookup (writeAt (mkdirp fs (targetOf dest0 srcPath).dropLast)
          (targetOf dest0 srcPath) (.dir ch)) q = lookup fs q
        exact write_step_frame fs _ _ q h1 h2
    | some t =>
      exact merge_copy_frame mode ask dest0 pretend srcPath ch fs q h1 h2

theorem merge_copy_frame (mode : CopyConflictMode) (ask : RPath → Bool)
    (dest0 : RPath) (pretend : Bool) (srcPath : RPath)
    (ch : List (String × FSTree)) (fs : FSTree) (q : RPath)
    (h1 : ¬ targetOf dest0 srcPath <+: q) (h2 : ¬ q <+: targetOf dest0 srcPath) :
    lookup (merge_copy mode ask dest0 pretend srcPath ch fs).1 q = lookup fs q := by
  cases ch with
  | nil => rfl
  | cons p rest =>
    obtain ⟨n, sub⟩ := p
    have hT' : targetOf dest0 srcPath <+: targetOf dest0 (srcPath ++ [n]) := by
      show (dest0 ++ srcPath) <+: dest0 ++ (srcPath ++ [n])
      rw [← List.append_assoc]
      exact List.prefix_append _ _
    have h1' : ¬ targetOf dest0 (srcPath ++ [n]) <+: q :=
      fun hp => h1 (hT'.trans hp)
    have h2' : ¬ q <+: targetOf dest0 (srcPath ++ [n]) := by
      intro hp
      have hp' : q <+: (targetOf dest0 srcPath) ++ [n] := by
        simpa [targetOf, List.append_assoc] using hp
      rcases pref_split_of_pref_append hp' with hc | hc
      · exact h2 hc
      · exact h1 hc
    show lookup (merge_copy mode ask dest0 pretend srcPath rest
      (copy_one mode ask dest0 pretend (srcPath ++ [n]) sub fs).1).1 q = lookup fs q
    rw [merge_copy_frame mode ask dest0 pretend srcPath rest _ q h1 h2,
      copy_one_frame mode ask dest0 pretend (srcPath ++ [n]) sub fs q h1' h2']

end

mutual

theorem copy_one_pretend (mode : CopyConflictMode) (ask : RPath → Bool)
    (dest0 srcPath : RPath) (snap : FSTree) (fs : FSTree) :
    (copy_one mode ask dest0 true srcPath snap fs).1 = fs := by
  cases snap with
  | file c => exact fileStep_pretend mode ask dest0 srcPath c fs
  | dir ch =>
    simp only [copy_one]
    cases hl : lookup fs (targetOf dest0 srcPath) with
    | none => rfl
    | some t => exact merge_copy_pretend mode ask dest0 srcPath ch fs

theorem merge_copy_pretend (mode : CopyConflictMode) (ask : RPath → Bool)
    (dest0 srcPath : RPath) (ch : List (String × FSTree)) (fs : FSTree) :
    (merge_copy mode ask dest0 true srcPath ch fs).1 = fs := by
  cases ch with
  | nil => rfl
  | cons p rest =>
    obtain ⟨n, sub⟩ := p
    show (merge_copy mode ask dest0 true srcPath rest
      (copy_one mode ask dest0 true (srcPath ++ [n]) sub fs).1).1 = fs
    rw [copy_one_pretend mode ask dest0 (srcPath ++ [n]) sub fs,
      merge_copy_pretend mode ask dest0 srcPath rest fs]

end

mutual

theorem copy_one_preserves_file (mode : CopyConflictMode) (ask : RPath → Bool)
    (dest0 : RPath) (pretend : Bool) (srcPath : RPath) (snap : FSTree)
    (fs : FSTree) (q : RPath) (c : List Nat)
    (hq : entryAt fs q = some (.file c))
    (hsafe : ∀ rel ∈ filePositions snap, q ≠ targetOf dest0 (srcPath ++ rel)) :
    entryAt (copy_one mode ask dest0 pretend srcPath snap fs).1 q =
      some (.file c) := by
  cases snap with
  | file c0 =>
    have hqT : q ≠ targetOf dest0 srcPath := by
      have h0 := hsafe [] (by simp [filePositions])
      simpa using h0
    show entryAt (fileStep mode ask dest0 pretend srcPath c0 fs).1 q = some (.file c)
    rcases fileStep_fst mode ask dest0 pretend srcPath c0 fs with he | he
    · rw [he]; exact hq
    · rw [he]; exact copyFileAt_preserves_file hq hqT
  | dir ch =>
    simp only [copy_one]
    cases hl : lookup fs (targetOf dest0 srcPath) with
    | none =>
      cases pretend with
      | true => exact hq
      | false =>
        show entryAt (writeAt (mkdirp fs (targetOf dest0 srcPath).dropLast)
          (targetOf dest0 srcPath) (.dir ch)) q = some (.file c)
        exact write_step_preserves_file _ hq
          (not_pref_of_none hl (isSome_of_entryAt hq))
    | some t =>
      exact merge_copy_preserves_file mode ask dest0 pretend srcPath ch fs q c hq
        (fun rel hrel => hsafe rel hrel)

theorem merge_copy_preserves_file (mode : CopyConflictMode) (ask : RPath → Bool)
    (dest0 : RPath) (pretend : Bool) (srcPath : RPath)
    (ch : List (String × FSTree)) (fs : FSTree) (q : RPath) (c : List Nat)
    (hq : entryAt fs q = some (.file c))
    (hsafe : ∀ rel ∈ filePositionsCh ch, q ≠ targetOf dest0 (srcPath ++ rel)) :
    entryAt (merge_copy mode ask dest0 pretend srcPath ch fs).1 q =
      some (.file c) := by
  cases ch with
  | nil => exact hq
  | cons p rest =>
    obtain ⟨n, sub⟩ := p
    have hq1 := copy_one_preserves_file mode ask dest0 pretend (srcPath ++ [n]) sub
      fs q c hq
      (by
        intro rel hrel
        have hmem : (n :: rel) ∈ filePositionsCh ((n, sub) :: rest) := by
          show (n :: rel) ∈ (filePositions sub).map (n :: ·) ++ filePositionsCh rest
          exact List.mem_append_left _ (List.mem_map_of_mem _ hrel)
        have h0 := hsafe (n :: rel) hmem
        simpa [targetOf, List.append_assoc] using h0)
    show entryAt (merge_copy mode ask dest0 pretend srcPath rest
      (copy_one mode ask dest0 pretend (srcPath ++ [n]) sub fs).1).1 q =
        some (.file c)
    exact merge_copy_preserves_file mode ask dest0 pretend srcPath rest _ q c hq1
      (fun rel hrel => hsafe rel (List.mem_append_right _ hrel))

end

theorem lookup_agree_append {fs g : FSTree} {T : RPath}
    (hag : lookup g T = lookup fs T) (r : RPath) :
    lookup g (T ++ r) = lookup fs (T ++ r) := by
  rw [lookup_append, lookup_append, hag]

theorem wfTree_dir {ch : List (String × FSTree)} (h : wfTree (.dir ch) = true) :
    (ch.map Prod.fst).Nodup ∧ wfChildren ch = true := by
  simp only [wfTree, Bool.and_eq_true, decide_eq_true_eq] at h
  exact h

theorem wfChildren_cons {n : String} {sub : FSTree} {rest : List (String × FSTree)}
    (h : wfChildren ((n, sub) :: rest) = true) :
    wfTree sub = true ∧ wfChildren rest = true := by
  simp only [wfChildren, Bool.and_eq_true] at h
  exact h

theorem wfChildren_find {ch : List (String × FSTree)} {n : String} {sub : FSTree}
    (h : wfChildren ch = true) (hf : findChild ch n = some sub) :
    wfTree sub = true := by
  induction ch with
  | nil => simp [findChild] at hf
  | cons p rest ih =>
    obtain ⟨m, s⟩ := p
    obtain ⟨hs, hrest⟩ := wfChildren_cons h
    rw [findChild] at hf
    split at hf
    · cases hf; exact hs
    · exact ih hrest hf

theorem wf_lookup {fs : FSTree} {p : RPath} {t : FSTree} (hwf : wfTree fs = true)
    (hl : lookup fs p = some t) : wfTree t = true := by
  induction p generalizing fs with
  | nil =>
    cases fs <;> (injection hl with h; exact h ▸ hwf)
  | cons n p' ih =>
    cases fs with
    | file c => simp [lookup] at hl
    | dir ch =>
      rw [lookup_dir_cons] at hl
      cases hfc : findChild ch n with
      | none => rw [hfc] at hl; simp at hl
      | some sub =>
        rw [hfc] at hl
        exact ih (wfChildren_find (wfTree_dir hwf).2 hfc) hl

mutual

theorem copy_one_trace (mode : CopyConflictMode) (ask : RPath → Bool)
    (dest0 srcPath : RPath) (snap : FSTree) (fs g : FSTree)
    (hwf : wfTree snap = true)
    (hag : lookup g (targetOf dest0 srcPath) = lookup fs (targetOf dest0 srcPath)) :
    (copy_one mode ask dest0 false srcPath snap g).2 =
      (copy_one mode ask dest0 true srcPath snap fs).2 := by
  cases snap with
  | file c => exact fileStep_trace mode ask dest0 srcPath c fs g hag
  | dir ch =>
    simp only [copy_one, hag]
    cases hl : lookup fs (targetOf dest0 srcPath) with
    | none => rfl
    | some t =>
      obtain ⟨hnames, hch⟩ := wfTree_dir hwf
      have htr := merge_copy_trace mode ask dest0 srcPath ch fs g hch hnames
        (fun n _ => by
          have h2 := lookup_agree_append hag [n]
          show lookup g (targetOf dest0 (srcPath ++ [n])) =
            lookup fs (targetOf dest0 (srcPath ++ [n]))
          simpa [targetOf, List.append_assoc] using h2)
      show Ev.mergeDir srcPath (targetOf dest0 srcPath) ::
          (merge_copy mode ask dest0 false srcPath ch g).2 =
        Ev.mergeDir srcPath (targetOf dest0 srcPath) ::
          (merge_copy mode ask dest0 true srcPath ch fs).2
      rw [htr]

theorem merge_copy_trace (mode : CopyConflictMode) (ask : RPath → Bool)
    (dest0 srcPath : RPath) (ch : List (String × FSTree)) (fs g : FSTree)
    (hwf : wfChildren ch = true) (hnames : (ch.map Prod.fst).Nodup)
    (hag : ∀ n ∈ ch.map Prod.fst,
        lookup g (targetOf dest0 (srcPath ++ [n])) =
          lookup fs (targetOf dest0 (srcPath ++ [n]))) :
    (merge_copy mode ask dest0 false srcPath ch g).2 =
      (merge_copy mode ask dest0 true srcPath ch fs).2 := by
  cases ch with
  | nil => rfl
  | cons p rest =>
    obtain ⟨n, sub⟩ := p
    obtain ⟨hsub, hrest⟩ := wfChildren_cons hwf
    have hnames' : (n :: rest.map Prod.fst).Nodup := by simpa using hnames
    have hn_rest := (List.nodup_cons.1 hnames').1
    have hrest_nodup := (List.nodup_cons.1 hnames').2
    have hagn := hag n (by simp)
    have htr1 := copy_one_trace mode ask dest0 (srcPath ++ [n]) sub fs g hsub hagn
    have hg' : ∀ m ∈ rest.map Prod.fst,
        lookup (copy_one mode ask dest0 false (srcPath ++ [n]) sub g).1
            (targetOf dest0 (srcPath ++ [m])) =
          lookup fs (targetOf dest0 (srcPath ++ [m])) := by
      intro m hm
      have hmn : m ≠ n := by
        rintro rfl
        exact hn_rest hm
      have h1 : ¬ targetOf dest0 (srcPath ++ [n]) <+: targetOf dest0 (srcPath ++ [m]) := by
        intro hp
        have hp' : (dest0 ++ srcPath) ++ [n] <+: (dest0 ++ srcPath) ++ [m] := by
          simpa [targetOf, List.append_assoc] using hp
        exact hmn (List.cons_prefix_cons.1 (pref_append_left_iff.1 hp')).1.symm
      have h2 : ¬ targetOf dest0 (srcPath ++ [m]) <+: targetOf dest0 (srcPath ++ [n]) := by
        intro hp
        have hp' : (dest0 ++ srcPath) ++ [m] <+: (dest0 ++ srcPath) ++ [n] := by
          simpa [targetOf, List.append_assoc] using hp
        exact hmn (List.cons_prefix_cons.1 (pref_append_left_iff.1 hp')).1
      rw [copy_one_frame mode ask dest0 false (srcPath ++ [n]) sub g _ h1 h2]
      exact hag m (by simp [hm])
    have htr2 := merge_copy_trace mode ask dest0 srcPath rest fs
      (copy_one mode ask dest0 false (srcPath ++ [n]) sub g).1 hrest hrest_nodup hg'
    show (copy_one mode ask dest0 false (srcPath ++ [n]) sub g).2 ++
        (merge_copy mode ask dest0 false srcPath rest
          (copy_one mode ask dest0 false (srcPath ++ [n]) sub g).1).2 =
      (copy_one mode ask dest0 true (srcPath ++ [n]) sub fs).2 ++
        (merge_copy mode ask dest0 true srcPath rest
          (copy_one mode ask dest0 true (srcPath ++ [n]) sub fs).1).2
    rw [copy_one_pretend mode ask dest0 (srcPath ++ [n]) sub fs, htr1, htr2]

end

theorem copy_trace_aux (mode : CopyConflictMode) (ask : RPath → Bool)
    (dest0 : RPath) (sources : List RPath) (fs : FSTree)
    (hwf : wfTree fs = true) :
    ∀ g : FSTree,
      (∀ s ∈ sources, lookup g s = lookup fs s ∧
          lookup g (targetOf dest0 s) = lookup fs (targetOf dest0 s)) →
      (∀ s ∈ sources, ¬ s <+: dest0 ∧ ¬ dest0 <+: s) →
      sources.Pairwise (fun s t => ¬ s <+: t ∧ ¬ t <+: s) →
      (copy mode ask dest0 sources false g).2 =
        (copy mode ask dest0 sources true fs).2 := by
  induction sources with
  | nil => intro g _ _ _; rfl
  | cons s rest ih =>
    intro g hinv hdisj hpair
    obtain ⟨hs_look, hs_tgt⟩ := hinv s (by simp)
    obtain ⟨hpair_head, hpair_rest⟩ := List.pairwise_cons.1 hpair
    simp only [copy, hs_look]
    cases hl : lookup fs s with
    | none =>
      show Ev.sourceMissing s :: (copy mode ask dest0 rest false g).2 =
        Ev.sourceMissing s :: (copy mode ask dest0 rest true fs).2
      rw [ih g (fun t ht => hinv t (by simp [ht]))
        (fun t ht => hdisj t (by simp [ht])) hpair_rest]
    | some snap =>
      have hwfs : wfTree snap = true := wf_lookup hwf hl
      have htr1 := copy_one_trace mode ask dest0 s snap fs g hwfs hs_tgt
      have hg' : ∀ t ∈ rest,
          lookup (copy_one mode ask dest0 false s snap g).1 t = lookup fs t ∧
          lookup (copy_one mode ask dest0 false s snap g).1 (targetOf dest0 t) =
            lookup fs (targetOf dest0 t) := by
        intro t ht
        have hdt := hdisj t (by simp [ht])
        have hpt := hpair_head t ht
        constructor
        · rw [copy_one_frame mode ask dest0 false s snap g t
            (fun hp => hdt.2 ((List.prefix_append dest0 s).trans hp))
            (fun hp => by
              rcases pref_split_of_pref_append hp with hc | hc
              · exact hdt.1 hc
              · exact hdt.2 hc)]
          exact (hinv t (by simp [ht])).1
        · rw [copy_one_frame mode ask dest0 false s snap g (targetOf dest0 t)
            (fun hp => hpt.1 (pref_append_left_iff.1 hp))
            (fun hp => hpt.2 (pref_append_left_iff.1 hp))]
          exact (hinv t (by simp [ht])).2
      show (copy_one mode ask dest0 false s snap g).2 ++
          (copy mode ask dest0 rest false
            (copy_one mode ask dest0 false s snap g).1).2 =
        (copy_one mode ask dest0 true s snap fs).2 ++
          (copy mode ask dest0 rest true
            (copy_one mode ask dest0 true s snap fs).1).2
      rw [copy_one_pretend mode ask dest0 s snap fs, htr1,
        ih (copy_one mode ask dest0 false s snap g).1 hg'
          (fun t ht => hdisj t (by simp [ht])) hpair_rest]

theorem copy_preserves_aux (mode : CopyConflictMode) (ask : RPath → Bool)
    (dest0 : RPath) (sources : List RPath) (pretend : Bool) (fs : FSTree)
    (X : RPath) (c : List Nat) :
    ∀ g : FSTree, entryAt g X = some (.file c) →
      (∀ s ∈ sources, lookup g s = lookup fs s) →
      (∀ s ∈ sources, ¬ s <+: dest0 ∧ ¬ dest0 <+: s) →
      (∀ s ∈ sources, ∀ snap, lookup fs s = some snap →
          ∀ rel ∈ filePositions snap, X ≠ targetOf dest0 (s ++ rel)) →
      entryAt (copy mode ask dest0 sources pretend g).1 X = some (.file c) := by
  induction sources with
  | nil => intro g hX _ _ _; exact hX
  | cons s rest ih =>
    intro g hX hinv hdisj hsafe
    have hs_look := hinv s (by simp)
    simp only [copy, hs_look]
    cases hl : lookup fs s with
    | none =>
      exact ih g hX (fun t ht => hinv t (by simp [ht]))
        (fun t ht => hdisj t (by simp [ht]))
        (fun t ht => hsafe t (by simp [ht]))
    | some snap =>
      have hX1 := copy_one_preserves_file mode ask dest0 pretend s snap g X c hX
        (fun rel hrel => hsafe s (by simp) snap hl rel hrel)
      have hinv' : ∀ t ∈ rest,
          lookup (copy_one mode ask dest0 pretend s snap g).1 t = lookup fs t := by
        intro t ht
        have hdt' := hdisj t (by simp [ht])
        rw [copy_one_frame mode ask dest0 pretend s snap g t
          (fun hp => hdt'.2 ((List.prefix_append dest0 s).trans hp))
          (fun hp => by
            rcases pref_split_of_pref_append hp with hc | hc
            · exact hdt'.1 hc
            · exact hdt'.2 hc)]
        exact hinv t (by simp [ht])
      show entryAt (copy mode ask dest0 rest pretend
        (copy_one mode ask dest0 pretend s snap g).1).1 X = some (.file c)
      exact ih _ hX1 hinv' (fun t ht => hdisj t (by simp [ht]))
        (fun t ht => hsafe t (by simp [ht]))

/-! ### The claims about merging and dry runs -/

/-- C7: merge non-destructiveness: a file `X` already present in the
destination tree that is not provided by any source - `X` is not the
target of any regular file lying under a source path - is still present
and byte-identical after the copy, for every conflict mode, in real and
dry runs, whenever each source is incomparable with the destination (the
invariant the filter chain establishes before the engine runs). -/
theorem merge_preserves_unrelated (mode : CopyConflictMode) (ask : RPath → Bool)
    (dest0 : RPath) (sources : List RPath) (pretend : Bool) (fs : FSTree)
    (X : RPath) (c : List Nat)
    (hX : entryAt fs X = some (.file c))
    (hdisj : ∀ s ∈ sources, ¬ s <+: dest0 ∧ ¬ dest0 <+: s)
    (hsafe : ∀ s ∈ sources, ∀ snap, lookup fs s = some snap →
        ∀ rel ∈ filePositions snap, X ≠ targetOf dest0 (s ++ rel)) :
    entryAt (copy mode ask dest0 sources pretend fs).1 X = some (.file c) :=
  copy_preserves_aux mode ask dest0 sources pretend fs X c fs hX
    (fun _ _ => rfl) hdisj hsafe

theorem merge_preserves_unrelated_witness :
    entryAt (copy .NO_OVERWRITE (fun _ => false) ["d"] [["a", "b"]] false fs7).1
        ["d", "a", "b", "old"] = some (.file [1]) :=
  merge_preserves_unrelated .NO_OVERWRITE (fun _ => false) ["d"] [["a", "b"]]
    false fs7 ["d", "a", "b", "old"] [1] (by decide) (by decide)
    (by
      intro s hs snap hsnap rel hrel
      simp only [List.mem_singleton] at hs
      subst hs
      rw [show lookup fs7 ["a", "b"] = some (.dir [("new", .file [2])]) from rfl]
        at hsnap
      injection hsnap with h
      subst h
      simp only [show filePositions (.dir [("new", FSTree.file [2])]) = [["new"]]
        from rfl, List.mem_singleton] at hrel
      subst hrel
      decide)

/-- C8 counterexample: for the non-antichain source set `[/a, /a/b]`
over a filesystem with an empty destination `/d`, the real run's tree
copy of `/a` makes the later decision for `/a/b` a skip-identical, while
the dry run still sees a missing target and decides to copy: dry-run
decision logic is not identical to a real run for every source set. -/
theorem dry_run_counterexample :
    (copy .NO_OVERWRITE (fun _ => false) ["d"] [["a"], ["a", "b"]] false fs8).2 ≠
      (copy .NO_OVERWRITE (fun _ => false) ["d"] [["a"], ["a", "b"]] true fs8).2 := by
  decide

/-- C8 (amended): dry-run performs no filesystem mutation, for every
source set, destination and conflict mode; and for source sets that are
antichains of paths each incomparable with the destination (the
invariants the filter chain and the minimizer establish) over a
well-formed filesystem, the dry run produces exactly the decision and
prompt trace of the real run. -/
theorem dry_run_amended :
    (∀ (mode : CopyConflictMode) (ask : RPath → Bool) (dest0 : RPath)
        (sources : List RPath) (fs : FSTree),
        (copy mode ask dest0 sources true fs).1 = fs) ∧
    (∀ (mode : CopyConflictMode) (ask : RPath → Bool) (dest0 : RPath)
        (sources : List RPath) (fs : FSTree),
        wfTree fs = true →
        (∀ s ∈ sources, ¬ s <+: dest0 ∧ ¬ dest0 <+: s) →
        sources.Pairwise (fun s t => ¬ s <+: t ∧ ¬ t <+: s) →
        (copy mode ask dest0 sources false fs).2 =
          (copy mode ask dest0 sources true fs).2) := by
  constructor
  · intro mode ask dest0 sources fs
    induction sources generalizing fs with
    | nil => rfl
    | cons s rest ih =>
      simp only [copy]
      cases lookup fs s with
      | none => exact ih fs
      | some snap =>
        show (copy mode ask dest0 rest true
          (copy_one mode ask dest0 true s snap fs).1).1 = fs
        rw [copy_one_pretend mode ask dest0 s snap fs]
        exact ih fs
  · intro mode ask dest0 sources fs hwf hdisj hpair
    exact copy_trace_aux mode ask dest0 sources fs hwf fs
      (fun s _ => ⟨rfl, rfl⟩) hdisj hpair

theorem dry_run_amended_witness :
    (copy .NO_OVERWRITE (fun _ => false) ["d"] [["a"]] false fs8).2 =
      (copy .NO_OVERWRITE (fun _ => false) ["d"] [["a"]] true fs8).2 :=
  dry_run_amended.2 .NO_OVERWRITE (fun _ => false) ["d"] [["a"]] fs8 (by decide)
    (by decide) (by decide)

/-! ### The claims about exit codes and the confirmation prompt -/

/-- C9 counterexample: three of the fatal setup errors share the exit
code `errno.ENOENT` (2): from the exit code alone a caller cannot
distinguish a missing backup list from a missing destination, nor from
archive-filename exhaustion, so the three fatal error classes do not
have mutually distinct codes. -/
theorem exit_code_counterexample :
    exitCodeOf .backupListMissing = exitCodeOf .noDefaultFilename ∧
    exitCodeOf .backupListMissing = exitCodeOf .destMissing ∧
    exitCodeOf .backupListMissing = 2 := by decide

/-- C9 (amended): the exit codes are stable errno values - `ENOENT` (2)
for a missing or non-file backup list, `ENOENT` or `ENOTDIR` (20) for a
missing or non-directory destination, and `ENOENT` again for
archive-filename exhaustion - but they are not mutually distinct: only
"destination is not a directory" is distinguishable. -/
theorem exit_codes_amended :
    exitCodeOf .backupListMissing = ENOENT ∧
    exitCodeOf .backupListNotFile = ENOENT ∧
    exitCodeOf .destMissing = ENOENT ∧
    exitCodeOf .destNotDir = ENOTDIR ∧
    exitCodeOf .noDefaultFilename = ENOENT ∧
    ENOENT = 2 ∧ ENOTDIR = 20 := by decide

/-- C10: the confirmation loop re-prompts until the answer, stripped of
surrounding whitespace and lowercased, is one of `""`, `"y"`, `"yes"`
(affirmative) or `"n"`, `"no"` (negative); in particular just pressing
Enter (the empty answer) counts as affirmative. -/
theorem overwrite_confirmation_spec :
    (∀ (a : String) (rest : List String),
        lowerStr (stripStr a) ∈ confirmations →
        overwrite_confirmation (a :: rest) = some true) ∧
    (∀ (a : String) (rest : List String),
        lowerStr (stripStr a) ∈ declines →
        overwrite_confirmation (a :: rest) = some false) ∧
    (∀ (a : String) (rest : List String),
        lowerStr (stripStr a) ∉ confirmations →
        lowerStr (stripStr a) ∉ declines →
        overwrite_confirmation (a :: rest) = overwrite_confirmation rest) ∧
    (∀ rest : List String, overwrite_confirmation ("" :: rest) = some true) := by
  refine ⟨?_, ?_, ?_, ?_⟩
  · intro a rest h
    simp [overwrite_confirmation, h]
  · intro a rest h
    have hnc : lowerStr (stripStr a) ∉ confirmations := by
      intro hc
      simp only [confirmations, declines, List.mem_cons, List.not_mem_nil,
        or_false] at h hc
      rcases h with h | h <;> rw [h] at hc <;> revert hc <;> decide
    simp [overwrite_confirmation, h, hnc]
  · intro a rest h1 h2
    simp [overwrite_confirmation, h1, h2]
  · intro rest
    rfl

theorem overwrite_confirmation_spec_witness :
    overwrite_confirmation ["  YES ", "x"] = some true ∧
    overwrite_confirmation ["maybe", " No"] = some false ∧
    overwrite_confirmation [""] = some true := by
  refine ⟨overwrite_confirmation_spec.1 "  YES " ["x"] (by decide), ?_,
    overwrite_confirmation_spec.2.2.2 []⟩
  rw [overwrite_confirmation_spec.2.2.1 "maybe" [" No"] (by decide) (by decide)]
  exact overwrite_confirmation_spec.2.1 " No" [] (by decide)

end SBU
